import Mathlib

/-!
Verification of the Dundie Awards backend core: the winner-resolution
algorithm (src/services/winners/main.py), the audit/security pipeline
(src/services/security/main.py) and the risk scorer
(src/shared/audit_utils.py), shallowly embedded from the Python source.

Timestamps are modelled as natural numbers; generated identifiers
(Python uuid4, assumed collision-free) are modelled by a fresh-id
counter threaded through each service state.  Python dictionaries are
modelled as insertion-ordered lists (CPython dicts preserve insertion
order); inserting under a fresh key appends, inserting under a present
key updates in place.
-/

namespace Dundie

/-! ### Shared data model (src/shared/models.py) -/

/-- Enumeration of audit event kinds (models.AuditEventType). -/
inductive AuditEventType where
  | nomination_submitted
  | vote_cast
  | winner_calculated
  | notification_sent
  | suspicious_activity
  deriving DecidableEq, Repr

/-- An audit event on the wire (models.AuditEvent).  The free-form
detail map is modelled as an ordered list of key/value pairs. -/
structure AuditEvent where
  id : String
  event_type : AuditEventType
  service_name : String
  user_id : Option String := none
  user_name : Option String := none
  resource_id : Option String := none
  resource_type : Option String := none
  details : List (String × String) := []
  created_at : Nat
  deriving DecidableEq, Repr

/-- A stored audit-log entry (models.AuditLog).  Its identity comes
from the fresh-id counter of the security service state. -/
structure AuditLog where
  id : Nat
  event_id : String
  event_type : AuditEventType
  service_name : String
  user_id : Option String := none
  user_name : Option String := none
  details : List (String × String) := []
  risk_score : Nat := 0
  investigated : Bool := false
  investigation_notes : Option String := none
  created_at : Nat
  investigated_at : Option Nat := none
  deriving DecidableEq, Repr

/-- A nomination record as retrieved from the nominations service
(models.Nomination); the category is carried as its string value. -/
structure Nomination where
  id : String
  employee_id : String
  employee_name : String
  category : String
  nominator_id : String
  nominator_name : String
  reason : String
  created_at : Nat
  deriving DecidableEq, Repr

/-- A winner record (models.Winner). -/
structure Winner where
  id : Nat
  nomination_id : String
  employee_id : String
  employee_name : String
  category : String
  total_votes : Nat
  reason : String
  created_at : Nat
  deriving DecidableEq, Repr

/-! ### Risk scorer (src/shared/audit_utils.py, calculate_risk_score) -/

/-- Base risk score keyed by event type (the risk_scores dict). -/
def baseRiskScore : AuditEventType → Nat
  | .nomination_submitted => 10
  | .vote_cast => 15
  | .winner_calculated => 20
  | .notification_sent => 5
  | .suspicious_activity => 80

/-- Python truthiness of an optional string: None and the empty string
are falsy (models the test on event.user_id). -/
def pyFalsyStr : Option String → Bool
  | none => true
  | some s => s == ""

/-- Single-quote character, used by the Python repr of a dict. -/
def squote : String := String.singleton (Char.ofNat 39)

/-- Serialized text of a detail map, as Python str() renders a dict of
strings; the empty map renders as "\x7b\x7d". -/
def detailsStr (d : List (String × String)) : String :=
  "\x7b" ++
    String.intercalate ", "
      (d.map fun kv => squote ++ kv.1 ++ squote ++ ": " ++ squote ++ kv.2 ++ squote) ++
    "\x7d"

/-- Containment of a character sequence inside another (Python
substring test, the in operator on strings). -/
def containsSub (sub : List Char) : List Char → Bool
  | [] => sub.isPrefixOf []
  | c :: t => sub.isPrefixOf (c :: t) || containsSub sub t

/-- Lowercasing of a character sequence (Python str.lower). -/
def lowerChars (l : List Char) : List Char := l.map Char.toLower

/-- Case-insensitive containment of a lowercase token in a text,
models token in text.lower() in Python. -/
def strContainsLower (text token : String) : Bool :=
  containsSub token.data (lowerChars text.data)

/-- Risk score of an audit event, translated from
audit_utils.calculate_risk_score: base score by event type, plus 20
when the actor identity is falsy, plus 15 / plus 25 when the serialized
detail map contains "multiple" / "rapid" case-insensitively, capped at
100. -/
def calculate_risk_score (event : AuditEvent) : Nat :=
  let score := 0 + baseRiskScore event.event_type
  let score := if pyFalsyStr event.user_id then score + 20 else score
  let score :=
    if event.details.isEmpty then score
    else
      let txt := lowerChars (detailsStr event.details).data
      let score := if containsSub "multiple".data txt then score + 15 else score
      if containsSub "rapid".data txt then score + 25 else score
  min score 100

/-- Closed-form risk score as the specification states it: base score
for the event kind, plus 20 when the actor identity is absent, plus 15
when the serialized detail map contains "multiple" case-insensitively,
plus 25 when it contains "rapid", clamped to at most 100. -/
def specRiskScore (event : AuditEvent) : Nat :=
  min
    (baseRiskScore event.event_type
      + (if pyFalsyStr event.user_id then 20 else 0)
      + (if strContainsLower (detailsStr event.details) "multiple" then 15 else 0)
      + (if strContainsLower (detailsStr event.details) "rapid" then 25 else 0))
    100

/-! ### Security / audit service state (src/services/security/main.py) -/

/-- State of the security service: the audit_logs_db dict (values in
insertion order), the processed_events dict (keys in insertion order),
and the fresh-id counter modelling generate_id. -/
structure SecurityState where
  audit_logs_db : List AuditLog := []
  processed_events : List String := []
  next_log_id : Nat := 0
  deriving DecidableEq, Repr

/-- Ingestion of an audit event (process_audit_event): a no-op when the
event identity was already processed, otherwise scores the event and
appends a fresh audit-log entry. -/
def process_audit_event (event : AuditEvent) (st : SecurityState) : SecurityState :=
  if event.id ∈ st.processed_events then st
  else
    let risk_score := calculate_risk_score event
    let audit_log : AuditLog :=
      { id := st.next_log_id
        event_id := event.id
        event_type := event.event_type
        service_name := event.service_name
        user_id := event.user_id
        user_name := event.user_name
        details := event.details
        risk_score := risk_score
        investigated := false
        created_at := event.created_at }
    { audit_logs_db := st.audit_logs_db ++ [audit_log]
      processed_events := st.processed_events ++ [event.id]
      next_log_id := st.next_log_id + 1 }

/-- Error kind of the security endpoints. -/
inductive SecError where
  | notFound
  deriving DecidableEq, Repr

/-- The in-place mutation performed by the investigation endpoint on
the selected entry. -/
def applyInvestigation (notes : String) (now : Nat) (log : AuditLog) : AuditLog :=
  { log with
      investigated := true
      investigation_notes := some notes
      investigated_at := some now }

/-- Investigation endpoint (investigate_audit_log): not-found when no
entry has the given identity, otherwise mutates that entry in place
and returns it. -/
def investigate_audit_log (log_id : Nat) (notes : String) (now : Nat)
    (st : SecurityState) : Except SecError AuditLog × SecurityState :=
  match st.audit_logs_db.find? (fun l => l.id == log_id) with
  | none => (.error .notFound, st)
  | some log =>
      let log2 := applyInvestigation notes now log
      (.ok log2,
        { st with
            audit_logs_db :=
              st.audit_logs_db.map (fun l => if l.id == log_id then log2 else l) })

/-- Optional filters of the audit-log listing endpoint. -/
structure LogFilters where
  event_type : Option AuditEventType := none
  service_name : Option String := none
  user_id : Option String := none
  min_risk_score : Option Int := none
  investigated : Option Bool := none
  deriving DecidableEq, Repr

/-- Audit-log retrieval (get_audit_logs): applies each supplied filter
in turn (a falsy string filter value is skipped, as in Python), sorts
by creation time descending (stable, as list.sort), and truncates to
the limit. -/
def get_audit_logs (f : LogFilters) (limit : Nat) (st : SecurityState) : List AuditLog :=
  let logs := st.audit_logs_db
  let logs :=
    match f.event_type with
    | none => logs
    | some et => logs.filter (fun log => log.event_type == et)
  let logs :=
    match f.service_name with
    | none => logs
    | some s => if s == "" then logs else logs.filter (fun log => log.service_name == s)
  let logs :=
    match f.user_id with
    | none => logs
    | some u => if u == "" then logs else logs.filter (fun log => log.user_id == some u)
  let logs :=
    match f.min_risk_score with
    | none => logs
    | some m => logs.filter (fun log => m ≤ (log.risk_score : Int))
  let logs :=
    match f.investigated with
    | none => logs
    | some b => logs.filter (fun log => log.investigated == b)
  (logs.mergeSort (fun a b => b.created_at ≤ a.created_at)).take limit

/-- Specification-side predicate: an entry satisfies the conjunction of
all supplied filters. -/
def matchesFilters (f : LogFilters) (log : AuditLog) : Bool :=
  (match f.event_type with
   | none => true
   | some et => log.event_type == et) &&
  (match f.service_name with
   | none => true
   | some s => log.service_name == s) &&
  (match f.user_id with
   | none => true
   | some u => log.user_id == some u) &&
  (match f.min_risk_score with
   | none => true
   | some m => decide (m ≤ (log.risk_score : Int))) &&
  (match f.investigated with
   | none => true
   | some b => log.investigated == b)

/-- Consistency of the dedup bookkeeping with the stored log: an event
identity is marked processed exactly when some entry materializes it.
This holds in every state the security service can reach. -/
def SecConsistent (st : SecurityState) : Prop :=
  ∀ i : String, i ∈ st.processed_events ↔ ∃ l ∈ st.audit_logs_db, l.event_id = i

/-- Number of stored entries whose source-event identity is the given
one. -/
def countById (st : SecurityState) (i : String) : Nat :=
  (st.audit_logs_db.filter (fun l => l.event_id == i)).length

/-! ### Winners service (src/services/winners/main.py) -/

/-- State of the winners service: the winners_db dict (values in
insertion order) and the fresh-id counter modelling generate_id. -/
structure WinnersState where
  winners_db : List Winner := []
  next_winner_id : Nat := 0
  deriving DecidableEq, Repr

/-- Error kind reported when an upstream snapshot cannot be
retrieved. -/
inductive DepError where
  | unavailable
  deriving DecidableEq, Repr

/-- Vote-count lookup built from the voting-results snapshot: the dict
comprehension keeps the last entry per nomination identity, and lookup
defaults to 0 (vote_counts.get(nomination_id, 0)). -/
def voteCountMap (vote_results : List (String × Nat)) (nomination_id : String) : Nat :=
  match vote_results.reverse.find? (fun r => r.1 == nomination_id) with
  | none => 0
  | some r => r.2

/-- Keys of a defaultdict built by appending, in first-appearance
order. -/
def keyOrder : List String → List String
  | [] => []
  | c :: rest => c :: keyOrder (rest.filter (fun x => x ≠ c))
termination_by l => l.length
decreasing_by
  simp only [List.length_cons]
  exact Nat.lt_succ_of_le (List.length_filter_le _ _)

/-- Grouping of the nominations by category
(defaultdict(list) in calculate_winners): categories in first-appearance
order, each with its nominations in retrieval order. -/
def groupByCategory (noms : List Nomination) : List (String × List Nomination) :=
  (keyOrder (noms.map (fun n => n.category))).map
    (fun c => (c, noms.filter (fun n => n.category == c)))

/-- The best-nomination loop of calculate_winners: walks the category
nominations keeping the first nomination whose count strictly exceeds
the running highest (which starts at -1). -/
def pickBest (vc : String → Nat) :
    List Nomination → Option Nomination → Int → Option Nomination × Int
  | [], best, highest => (best, highest)
  | nom :: rest, best, highest =>
      if (vc nom.id : Int) > highest then pickBest vc rest (some nom) (vc nom.id)
      else pickBest vc rest best highest

/-- Removal of the existing winner for a category, if any: the first
stored winner with that category is deleted by its identity. -/
def removeExistingForCategory (c : String) (db : List Winner) : List Winner :=
  match db.find? (fun w => w.category == c) with
  | none => db
  | some ex => db.filter (fun w => w.id ≠ ex.id)

/-- Insertion into the winners dict: updates in place when the key is
present, appends otherwise. -/
def dictInsertWinner (w : Winner) (db : List Winner) : List Winner :=
  if db.any (fun x => x.id == w.id) then db.map (fun x => if x.id == w.id then w else x)
  else db ++ [w]

/-- One iteration of the per-category loop of calculate_winners over
the accumulated (state, new_winners) pair. -/
def stepCategory (vc : String → Nat) (now : Nat)
    (q : WinnersState × List Winner) (g : String × List Nomination) :
    WinnersState × List Winner :=
  match pickBest vc g.2 none (-1) with
  | (none, _) => q
  | (some bestNom, highest) =>
      if 0 < highest then
        let w : Winner :=
          { id := q.1.next_winner_id
            nomination_id := bestNom.id
            employee_id := bestNom.employee_id
            employee_name := bestNom.employee_name
            category := bestNom.category
            total_votes := highest.toNat
            reason := bestNom.reason
            created_at := now }
        let db := removeExistingForCategory w.category q.1.winners_db
        let db := dictInsertWinner w db
        (⟨db, q.1.next_winner_id + 1⟩, q.2 ++ [w])
      else q

/-- Winner resolution (calculate_winners): aborts with a
dependency-unavailable error when either upstream snapshot is missing,
otherwise recomputes the winner of every category with a strictly
positive highest count, replacing any prior winner of that category.
Returns the newly created winners and the new registry state. -/
def calculate_winners (nomsResp : Option (List Nomination))
    (votesResp : Option (List (String × Nat))) (now : Nat) (st : WinnersState) :
    Except DepError (List Winner) × WinnersState :=
  match nomsResp with
  | none => (.error .unavailable, st)
  | some noms =>
      match votesResp with
      | none => (.error .unavailable, st)
      | some vote_results =>
          let vc := voteCountMap vote_results
          let groups := groupByCategory noms
          let r := groups.foldl (stepCategory vc now) (st, [])
          (.ok r.2, r.1)

/-- Specification-side maximum vote count over a list of nominations
(0 when the list is empty; counts default to 0 for nominations absent
from the snapshot). -/
def maxVotes (vc : String → Nat) (noms : List Nomination) : Nat :=
  noms.foldl (fun acc n => max acc (vc n.id)) 0

/-- States of the winners registry reachable by any sequence of
resolution calls from the empty registry. -/
inductive ReachableW : WinnersState → Prop
  | init : ReachableW {}
  | step (st : WinnersState) (nomsResp : Option (List Nomination))
      (votesResp : Option (List (String × Nat))) (now : Nat) :
      ReachableW st → ReachableW (calculate_winners nomsResp votesResp now st).2

/-! ### Sample values used by the witnesses -/

/-- A sample audit event with the given identity and timestamp. -/
def mkEvent (i : String) (t : Nat) : AuditEvent :=
  { id := i, event_type := .vote_cast, service_name := "voting", created_at := t }

/-- A sample nomination in the given category. -/
def mkNom (i c : String) : Nomination :=
  { id := i, employee_id := "e" ++ i, employee_name := "emp" ++ i, category := c
    nominator_id := "u0", nominator_name := "nominator", reason := "because", created_at := 1 }

/-- The security state after ingesting one sample event into the empty
state. -/
def sampleIngested : SecurityState := process_audit_event (mkEvent "a" 1) {}

/-! ### Supporting lemmas: security service -/

/-- Ingesting an event whose identity is marked processed changes
nothing. -/
lemma process_audit_event_processed {e : AuditEvent} {st : SecurityState}
    (h : e.id ∈ st.processed_events) : process_audit_event e st = st := by
  simp [process_audit_event, h]

/-- Ingesting an event with an unprocessed identity appends one entry
and marks the identity. -/
lemma process_audit_event_fresh {e : AuditEvent} {st : SecurityState}
    (h : e.id ∉ st.processed_events) :
    (process_audit_event e st).audit_logs_db
        = st.audit_logs_db ++
          [{ id := st.next_log_id, event_id := e.id, event_type := e.event_type
             service_name := e.service_name, user_id := e.user_id, user_name := e.user_name
             details := e.details, risk_score := calculate_risk_score e
             investigated := false, created_at := e.created_at }] ∧
      (process_audit_event e st).processed_events = st.processed_events ++ [e.id] := by
  simp [process_audit_event, h]

/-- In a consistent state, an identity materialized by no entry is not
marked processed. -/
lemma not_processed_of_fresh {st : SecurityState} {i : String}
    (hcons : SecConsistent st) (hfresh : ∀ l ∈ st.audit_logs_db, l.event_id ≠ i) :
    i ∉ st.processed_events := by
  intro hmem
  obtain ⟨l, hl, hid⟩ := (hcons i).mp hmem
  exact hfresh l hl hid

/-- A state with no entry for an identity counts zero entries for it. -/
lemma countById_eq_zero {st : SecurityState} {i : String}
    (hfresh : ∀ l ∈ st.audit_logs_db, l.event_id ≠ i) : countById st i = 0 := by
  simp only [countById, List.length_eq_zero]
  rw [List.filter_eq_nil_iff]
  intro l hl
  simpa using hfresh l hl

/-! ### Claim C5: the risk scorer -/

/-- Neither heuristic token occurs in the rendering of an empty detail
map. -/
lemma empty_details_multiple : strContainsLower (detailsStr []) "multiple" = false := by decide

/-- Companion fact for the second heuristic token. -/
lemma empty_details_rapid : strContainsLower (detailsStr []) "rapid" = false := by decide

/-- C5: the risk scorer is the pure function of the event given by the
closed-form specification — base score per event kind (10/15/20/5/80),
plus 20 for an absent actor identity, plus 15 for "multiple" and plus
25 for "rapid" in the serialized detail map (case-insensitive),
clamped to [0, 100] — and an event of kind suspicious-activity with no
actor scores exactly 100. -/
theorem calculate_risk_score_spec (e : AuditEvent) :
    calculate_risk_score e = specRiskScore e ∧
    calculate_risk_score e ≤ 100 ∧
    (e.event_type = .suspicious_activity → e.user_id = none → calculate_risk_score e = 100) := by
  have hmain : calculate_risk_score e = specRiskScore e := by
    unfold calculate_risk_score specRiskScore strContainsLower
    cases hd : e.details.isEmpty
    · simp only [hd, Bool.false_eq_true, if_false]
      cases hA : pyFalsyStr e.user_id <;>
      cases hM : containsSub "multiple".data (lowerChars (detailsStr e.details).data) <;>
      cases hR : containsSub "rapid".data (lowerChars (detailsStr e.details).data) <;>
      simp
    · have hd2 : e.details = [] := by
        cases hdl : e.details
        · rfl
        · rw [hdl] at hd; simp at hd
      rw [hd2]
      have hm := empty_details_multiple
      have hr := empty_details_rapid
      rw [strContainsLower] at hm hr
      simp only [List.isEmpty_nil, if_true, hm, hr, Bool.false_eq_true, if_false]
      cases hA : pyFalsyStr e.user_id <;> simp
  refine ⟨hmain, ?_, ?_⟩
  · rw [hmain]; unfold specRiskScore; exact Nat.min_le_right _ _
  · intro het hu
    rw [hmain]; unfold specRiskScore
    rw [het]
    have hA : pyFalsyStr e.user_id = true := by rw [hu]; rfl
    rw [hA]
    simp only [baseRiskScore, if_true]
    cases hM : strContainsLower (detailsStr e.details) "multiple" <;>
    cases hR : strContainsLower (detailsStr e.details) "rapid" <;>
    simp

/-- Witness for C5: the spec example — a vote-cast event with missing
actor and a detail text containing both tokens scores 75, and a
suspicious-activity event with no actor scores 100. -/
theorem calculate_risk_score_spec_witness :
    calculate_risk_score
        { mkEvent "w" 3 with details := [("note", "multiple rapid duplicate votes")] } = 75 ∧
    calculate_risk_score { mkEvent "w" 3 with event_type := .suspicious_activity } = 100 := by
  constructor
  · have h := (calculate_risk_score_spec
      { mkEvent "w" 3 with details := [("note", "multiple rapid duplicate votes")] }).1
    rw [h]; decide
  · exact (calculate_risk_score_spec
      { mkEvent "w" 3 with event_type := .suspicious_activity }).2.2 rfl rfl

/-! ### Claim C8: is re-investigation mutation-free? (corrected) -/

/-- The state after investigating the sample entry once. -/
def investigatedOnce : SecurityState :=
  (investigate_audit_log 0 "first look" 10 sampleIngested).2

/-- The state after investigating the same entry a second time. -/
def investigatedTwice : SecurityState :=
  (investigate_audit_log 0 "second look" 20 investigatedOnce).2

/-- C8 counterexample: a second invocation of investigate on the same
entry does change its stored notes and timestamp — from
("first look", 10) to ("second look", 20) — so the entry is mutated
more than once and re-investigation is effective, contrary to the
claim. -/
theorem reinvestigation_changes_notes_counterexample :
    (investigatedOnce.audit_logs_db.map fun l => (l.investigation_notes, l.investigated_at))
        = [(some "first look", some 10)] ∧
    (investigatedTwice.audit_logs_db.map fun l => (l.investigation_notes, l.investigated_at))
        = [(some "second look", some 20)] := by
  constructor
  · decide
  · decide

/-- C8 (amended): each investigation of an existing entry sets
investigated=true and overwrites the notes and timestamp with the
newly supplied values — re-investigation is supported — while the flag
transition stays one-way: every entry of the resulting log is either
untouched or has investigated=true, so the flag is never reset. -/
theorem investigate_overwrite_one_way
    (st : SecurityState) (i : Nat) (notes : String) (now : Nat) (log : AuditLog)
    (hf : st.audit_logs_db.find? (fun l => l.id == i) = some log) :
    ∃ log2, (investigate_audit_log i notes now st).1 = .ok log2 ∧
      log2.investigated = true ∧ log2.investigation_notes = some notes ∧
      log2.investigated_at = some now ∧
      ∀ l ∈ (investigate_audit_log i notes now st).2.audit_logs_db,
        l ∈ st.audit_logs_db ∨ l.investigated = true := by
  refine ⟨applyInvestigation notes now log, by simp [investigate_audit_log, hf],
    rfl, rfl, rfl, ?_⟩
  intro l hl
  simp only [investigate_audit_log, hf] at hl
  obtain ⟨x, hx, rfl⟩ := List.mem_map.mp hl
  by_cases h : (x.id == i) = true
  · right; simp [h, applyInvestigation]
  · left; simpa [h] using hx

/-- Witness for the amended C8 at the twice-investigated sample. -/
theorem investigate_overwrite_one_way_witness :
    ∃ log2, (investigate_audit_log 0 "second look" 20 investigatedOnce).1 = .ok log2 ∧
      log2.investigated = true ∧ log2.investigation_notes = some "second look" ∧
      log2.investigated_at = some 20 ∧
      ∀ l ∈ (investigate_audit_log 0 "second look" 20 investigatedOnce).2.audit_logs_db,
        l ∈ investigatedOnce.audit_logs_db ∨ l.investigated = true :=
  investigate_overwrite_one_way investigatedOnce 0 "second look" 20
    { id := 0, event_id := "a", event_type := .vote_cast, service_name := "voting"
      risk_score := calculate_risk_score (mkEvent "a" 1), investigated := true
      investigation_notes := some "first look", created_at := 1, investigated_at := some 10 }
    (by decide)

/-! ### Claim C2: ingestion is idempotent on the event identity -/

/-- C2: from any consistent audit-log state, ingesting twice with the
same (fresh) event identity produces exactly one entry for that
identity — the second call is a silent no-op returning the state
unchanged — while ingesting two events of different identities
produces two entries, one per identity. -/
theorem process_audit_event_idempotent
    (st : SecurityState) (e1 e2 e3 : AuditEvent)
    (hcons : SecConsistent st)
    (h12 : e2.id = e1.id)
    (hfresh1 : ∀ l ∈ st.audit_logs_db, l.event_id ≠ e1.id)
    (h13 : e3.id ≠ e1.id)
    (hfresh3 : ∀ l ∈ st.audit_logs_db, l.event_id ≠ e3.id) :
    countById (process_audit_event e2 (process_audit_event e1 st)) e1.id = 1 ∧
    process_audit_event e2 (process_audit_event e1 st) = process_audit_event e1 st ∧
    countById (process_audit_event e3 (process_audit_event e1 st)) e1.id = 1 ∧
    countById (process_audit_event e3 (process_audit_event e1 st)) e3.id = 1 ∧
    ((process_audit_event e3 (process_audit_event e1 st)).audit_logs_db).length
        = st.audit_logs_db.length + 2 := by
  have hnp1 : e1.id ∉ st.processed_events := not_processed_of_fresh hcons hfresh1
  obtain ⟨hdb1, hpr1⟩ := process_audit_event_fresh hnp1
  have hcount0 : countById st e1.id = 0 := countById_eq_zero hfresh1
  have hcount1 : countById (process_audit_event e1 st) e1.id = 1 := by
    simp only [countById, hdb1, List.filter_append, List.length_append]
    have h0 : (st.audit_logs_db.filter (fun l => l.event_id == e1.id)).length = 0 := hcount0
    simp [h0]
  have hmem2 : e2.id ∈ (process_audit_event e1 st).processed_events := by
    rw [hpr1, h12]; simp
  have hnoop : process_audit_event e2 (process_audit_event e1 st)
      = process_audit_event e1 st := process_audit_event_processed hmem2
  have hnp3 : e3.id ∉ (process_audit_event e1 st).processed_events := by
    rw [hpr1]
    simp only [List.mem_append, List.mem_singleton]
    rintro (h | h)
    · exact not_processed_of_fresh hcons hfresh3 h
    · exact h13 h
  obtain ⟨hdb3, hpr3⟩ := process_audit_event_fresh hnp3
  refine ⟨by rw [hnoop]; exact hcount1, hnoop, ?_, ?_, ?_⟩
  · simp only [countById, hdb3, List.filter_append, List.length_append]
    have h1 : ((process_audit_event e1 st).audit_logs_db.filter
        (fun l => l.event_id == e1.id)).length = 1 := hcount1
    simp [h1, h13]
  · simp only [countById, hdb3, List.filter_append, List.length_append]
    have h0 : ((process_audit_event e1 st).audit_logs_db.filter
        (fun l => l.event_id == e3.id)).length = 0 := by
      simp only [countById, hdb1, List.filter_append, List.length_append]
      have hz : (st.audit_logs_db.filter (fun l => l.event_id == e3.id)).length = 0 :=
        countById_eq_zero hfresh3
      have hne : (e1.id == e3.id) = false := by
        simpa using fun h => h13 h.symm
      simp [hz, hne]
    simp [h0]
  · rw [hdb3, hdb1]
    simp

/-- Witness for C2 at concrete inputs: the empty state is consistent
and both identities are fresh there. -/
theorem process_audit_event_idempotent_witness :
    countById (process_audit_event (mkEvent "a" 2) (process_audit_event (mkEvent "a" 1) {})) "a" = 1 ∧
    process_audit_event (mkEvent "a" 2) (process_audit_event (mkEvent "a" 1) {})
        = process_audit_event (mkEvent "a" 1) {} ∧
    countById (process_audit_event (mkEvent "b" 2) (process_audit_event (mkEvent "a" 1) {})) "a" = 1 ∧
    countById (process_audit_event (mkEvent "b" 2) (process_audit_event (mkEvent "a" 1) {})) "b" = 1 ∧
    ((process_audit_event (mkEvent "b" 2) (process_audit_event (mkEvent "a" 1) {})).audit_logs_db).length
        = (SecurityState.audit_logs_db {}).length + 2 := by
  have h := process_audit_event_idempotent {} (mkEvent "a" 1) (mkEvent "a" 2) (mkEvent "b" 2)
    (by simp [SecConsistent]) rfl (by simp) (by decide) (by simp)
  simpa [mkEvent] using h

/-! ### Claim C10: ingestion is first-writer-wins on the dedup key -/

/-- C10: in a consistent state already containing an entry for the
incoming event identity, ingestion leaves the entire state unchanged —
the later payload is discarded, not merged. -/
theorem process_audit_event_first_writer_wins
    (st : SecurityState) (e : AuditEvent)
    (hcons : SecConsistent st)
    (hexist : ∃ l ∈ st.audit_logs_db, l.event_id = e.id) :
    process_audit_event e st = st :=
  process_audit_event_processed ((hcons e.id).mpr hexist)

/-- Witness for C10: after ingesting one event, re-ingesting a payload
with the same identity but different attributes changes nothing. -/
theorem process_audit_event_first_writer_wins_witness :
    process_audit_event { mkEvent "a" 9 with service_name := "other", user_id := some "u9" }
        sampleIngested
      = sampleIngested := by
  refine process_audit_event_first_writer_wins _ _ ?_ ?_
  · simp only [SecConsistent, sampleIngested, process_audit_event, mkEvent]
    simp [eq_comm]
  · simp [sampleIngested, process_audit_event, mkEvent]

/-! ### Claim C4: dependency failure aborts without mutating -/

/-- C4: when either upstream snapshot is unavailable, winner resolution
reports a dependency-unavailable error and returns the registry exactly
as it was. -/
theorem calculate_winners_dependency_failure
    (nomsResp : Option (List Nomination)) (votesResp : Option (List (String × Nat)))
    (now : Nat) (st : WinnersState)
    (h : nomsResp = none ∨ votesResp = none) :
    calculate_winners nomsResp votesResp now st = (.error .unavailable, st) := by
  rcases h with h | h
  · subst h; rfl
  · subst h; cases nomsResp <;> rfl

/-- Witness for C4 at concrete inputs. -/
theorem calculate_winners_dependency_failure_witness :
    calculate_winners (some [mkNom "n1" "Fine Work"]) none 5
        { winners_db := [], next_winner_id := 0 }
      = (.error .unavailable, { winners_db := [], next_winner_id := 0 }) :=
  calculate_winners_dependency_failure _ _ _ _ (Or.inr rfl)

/-! ### Claim C7: the investigation endpoint -/

/-- C7: investigate fails with not-found exactly when no entry has the
requested identity (leaving the state unchanged); otherwise it returns
the stored entry updated in place with investigated=true, the supplied
notes and the current time, all other fields preserved — with no
precondition on whether the entry was already investigated. -/
theorem investigate_audit_log_spec
    (st : SecurityState) (i : Nat) (notes : String) (now : Nat) :
    ((∀ l ∈ st.audit_logs_db, l.id ≠ i) →
        investigate_audit_log i notes now st = (.error .notFound, st)) ∧
    (∀ log, st.audit_logs_db.find? (fun l => l.id == i) = some log →
        ∃ log2,
          investigate_audit_log i notes now st =
            (.ok log2,
              { st with audit_logs_db :=
                  st.audit_logs_db.map (fun l => if l.id == i then log2 else l) }) ∧
          log2.investigated = true ∧
          log2.investigation_notes = some notes ∧
          log2.investigated_at = some now ∧
          log2.id = log.id ∧ log2.event_id = log.event_id ∧
          log2.event_type = log.event_type ∧ log2.service_name = log.service_name ∧
          log2.user_id = log.user_id ∧ log2.user_name = log.user_name ∧
          log2.details = log.details ∧ log2.risk_score = log.risk_score ∧
          log2.created_at = log.created_at) := by
  constructor
  · intro h
    have hf : st.audit_logs_db.find? (fun l => l.id == i) = none :=
      List.find?_eq_none.mpr (fun l hl => by simpa using h l hl)
    simp [investigate_audit_log, hf]
  · intro log hf
    exact ⟨applyInvestigation notes now log, by simp [investigate_audit_log, hf],
      rfl, rfl, rfl, rfl, rfl, rfl, rfl, rfl, rfl, rfl, rfl, rfl⟩

/-- Witness for C7: both branches at concrete inputs — identity 5 is
absent, identity 0 is present. -/
theorem investigate_audit_log_spec_witness :
    investigate_audit_log 5 "notes" 10 sampleIngested
        = (.error .notFound, sampleIngested) ∧
    ∃ log2,
      investigate_audit_log 0 "notes" 10 sampleIngested
          = (.ok log2,
            { sampleIngested with
                audit_logs_db :=
                  sampleIngested.audit_logs_db.map (fun l => if l.id == 0 then log2 else l) }) ∧
        log2.investigated = true := by
  constructor
  · have h5 : ∀ l ∈ sampleIngested.audit_logs_db, l.id ≠ 5 := by decide
    exact (investigate_audit_log_spec sampleIngested 5 "notes" 10).1 h5
  · have h0 : sampleIngested.audit_logs_db.find? (fun l => l.id == 0)
        = some { id := 0, event_id := "a", event_type := .vote_cast, service_name := "voting"
                 risk_score := calculate_risk_score (mkEvent "a" 1), created_at := 1 } := by
      decide
    obtain ⟨log2, heq, hinv, -⟩ :=
      (investigate_audit_log_spec sampleIngested 0 "notes" 10).2 _ h0
    exact ⟨log2, heq, hinv⟩

/-! ### Supporting lemmas: the best-nomination loop -/

/-- The running maximum never decreases below its start. -/
lemma le_foldl_max (vc : String → Nat) (l : List Nomination) : ∀ a : Int,
    a ≤ l.foldl (fun acc n => max acc ((vc n.id : Int))) a := by
  induction l with
  | nil => intro a; exact le_refl a
  | cons n rest ih =>
      intro a
      simp only [List.foldl_cons]
      exact le_trans (le_max_left a _) (ih _)

/-- The second component of pickBest is the running maximum of the
counts. -/
lemma pickBest_snd (vc : String → Nat) (l : List Nomination) :
    ∀ (b : Option Nomination) (h : Int),
    (pickBest vc l b h).2 = l.foldl (fun acc n => max acc ((vc n.id : Int))) h := by
  induction l with
  | nil => intro b h; rfl
  | cons n rest ih =>
      intro b h
      simp only [pickBest, List.foldl_cons]
      by_cases hc : ((vc n.id : Int)) > h
      · rw [if_pos hc, ih, max_eq_right (le_of_lt hc)]
      · rw [if_neg hc, ih, max_eq_left (by omega)]

/-- The first component of pickBest: when some count exceeded the
starting highest, it is the first nomination whose count equals the
final maximum; otherwise the starting candidate survives.  This is the
strictly-greater tie-break of the loop. -/
lemma pickBest_fst (vc : String → Nat) (l : List Nomination) :
    ∀ (b : Option Nomination) (h : Int),
    (pickBest vc l b h).1 =
      if h < (pickBest vc l b h).2 then
        l.find? (fun n => ((vc n.id : Int)) == (pickBest vc l b h).2)
      else b := by
  induction l with
  | nil =>
      intro b h
      simp [pickBest]
  | cons n rest ih =>
      intro b h
      by_cases hc : ((vc n.id : Int)) > h
      · have hrec : pickBest vc (n :: rest) b h = pickBest vc rest (some n) ((vc n.id : Int)) := by
          simp [pickBest, hc]
        rw [hrec, ih]
        have hle : ((vc n.id : Int)) ≤ (pickBest vc rest (some n) ((vc n.id : Int))).2 := by
          rw [pickBest_snd]
          exact le_foldl_max vc rest _
        rw [if_pos (lt_of_lt_of_le hc hle)]
        by_cases hcS : ((vc n.id : Int)) < (pickBest vc rest (some n) ((vc n.id : Int))).2
        · rw [if_pos hcS, List.find?_cons_of_neg]
          simp only [beq_iff_eq]
          omega
        · have hEq : ((vc n.id : Int)) = (pickBest vc rest (some n) ((vc n.id : Int))).2 :=
            le_antisymm hle (not_lt.mp hcS)
          rw [if_neg hcS, List.find?_cons_of_pos]
          simp only [beq_iff_eq]
          exact hEq
      · have hrec : pickBest vc (n :: rest) b h = pickBest vc rest b h := by
          simp [pickBest, hc]
        rw [hrec, ih]
        by_cases hhS : h < (pickBest vc rest b h).2
        · rw [if_pos hhS, if_pos hhS, List.find?_cons_of_neg]
          simp only [beq_iff_eq]
          omega
        · rw [if_neg hhS, if_neg hhS]

/-- Folding the integer maximum from a natural start agrees with the
natural fold. -/
lemma foldl_max_int_nat (vc : String → Nat) (l : List Nomination) : ∀ a : Nat,
    l.foldl (fun acc n => max acc ((vc n.id : Int))) (a : Int)
      = ((l.foldl (fun acc n => max acc (vc n.id)) a : Nat) : Int) := by
  induction l with
  | nil => intro a; rfl
  | cons n rest ih =>
      intro a
      simp only [List.foldl_cons]
      rw [← Nat.cast_max, ih]

/-- Starting the loop maximum from -1 computes the (natural) maximum
vote count of a nonempty category. -/
lemma maxVotes_int (vc : String → Nat) {l : List Nomination} (hne : l ≠ []) :
    l.foldl (fun acc n => max acc ((vc n.id : Int))) (-1) = (maxVotes vc l : Int) := by
  cases l with
  | nil => exact absurd rfl hne
  | cons n rest =>
      simp only [List.foldl_cons, maxVotes]
      rw [max_eq_right (by omega : (-1 : Int) ≤ ((vc n.id : Int))),
        Nat.zero_max, foldl_max_int_nat]

/-- A fold of maxima is either its start or one of the folded
values. -/
lemma foldl_max_attained (vc : String → Nat) (l : List Nomination) : ∀ a : Nat,
    l.foldl (fun acc n => max acc (vc n.id)) a = a ∨
      ∃ n ∈ l, l.foldl (fun acc n => max acc (vc n.id)) a = vc n.id := by
  induction l with
  | nil => intro a; left; rfl
  | cons n rest ih =>
      intro a
      simp only [List.foldl_cons]
      rcases ih (max a (vc n.id)) with h | ⟨m, hm, hfold⟩
      · rw [h]
        rcases max_choice a (vc n.id) with hmax | hmax <;> rw [hmax]
        · left; rfl
        · right; exact ⟨n, List.mem_cons_self n rest, rfl⟩
      · right; exact ⟨m, List.mem_cons_of_mem _ hm, hfold⟩

/-- A strictly positive maximum vote count is attained by some
nomination of the category. -/
lemma maxVotes_attained (vc : String → Nat) {l : List Nomination}
    (h : 0 < maxVotes vc l) : ∃ n ∈ l, vc n.id = maxVotes vc l := by
  rcases foldl_max_attained vc l 0 with h0 | ⟨n, hn, hf⟩
  · exfalso
    rw [maxVotes, h0] at h
    exact Nat.lt_irrefl 0 h
  · exact ⟨n, hn, hf.symm⟩

/-- A winner produced from a category's nominations: it carries the
fields of the first nomination achieving the maximum count, and that
maximum as total_votes. -/
def WinnerFromBest (vc : String → Nat) (now : Nat) (catNoms : List Nomination)
    (w : Winner) : Prop :=
  ∃ bestN, catNoms.find? (fun n => vc n.id == maxVotes vc catNoms) = some bestN ∧
    w.category = bestN.category ∧ w.nomination_id = bestN.id ∧
    w.total_votes = maxVotes vc catNoms ∧ w.employee_id = bestN.employee_id ∧
    w.employee_name = bestN.employee_name ∧ w.reason = bestN.reason ∧
    w.created_at = now

/-- One loop iteration over a nonempty category whose maximum count is
positive appends exactly one winner, built from the first nomination at
the maximum. -/
lemma stepCategory_produces (vc : String → Nat) (now : Nat)
    (q : WinnersState × List Winner) (c : String) (catNoms : List Nomination)
    (hne : catNoms ≠ []) (hpos : 0 < maxVotes vc catNoms) :
    ∃ w, (stepCategory vc now q (c, catNoms)).2 = q.2 ++ [w] ∧
      WinnerFromBest vc now catNoms w := by
  have hsnd : (pickBest vc catNoms none (-1)).2 = ((maxVotes vc catNoms : Nat) : Int) := by
    rw [pickBest_snd, maxVotes_int vc hne]
  have hneg : (-1 : Int) < (pickBest vc catNoms none (-1)).2 := by
    rw [hsnd]; omega
  have hfst := pickBest_fst vc catNoms none (-1)
  rw [if_pos hneg, hsnd] at hfst
  have hpredeq : (fun n : Nomination => ((vc n.id : Int)) == ((maxVotes vc catNoms : Nat) : Int))
      = (fun n : Nomination => vc n.id == maxVotes vc catNoms) := by
    funext n
    by_cases hh : vc n.id = maxVotes vc catNoms
    · simp [hh]
    · simp [beq_iff_eq, hh]
  rw [hpredeq] at hfst
  obtain ⟨bestN, hbmem, hbval⟩ := maxVotes_attained vc hpos
  have hisSome : (catNoms.find? (fun n => vc n.id == maxVotes vc catNoms)).isSome := by
    rw [List.find?_isSome]
    exact ⟨bestN, hbmem, by simp [hbval]⟩
  obtain ⟨bN, hfind⟩ := Option.isSome_iff_exists.mp hisSome
  have hpair : pickBest vc catNoms none (-1)
      = (some bN, ((maxVotes vc catNoms : Nat) : Int)) := by
    rw [Prod.ext_iff]
    exact ⟨by rw [hfst, hfind], hsnd⟩
  refine ⟨⟨q.1.next_winner_id, bN.id, bN.employee_id, bN.employee_name, bN.category,
    maxVotes vc catNoms, bN.reason, now⟩, ?_, bN, hfind, rfl, rfl, rfl, rfl, rfl, rfl, rfl⟩
  simp only [stepCategory, hpair]
  rw [if_pos (by exact_mod_cast hpos : (0 : Int) < ((maxVotes vc catNoms : Nat) : Int))]
  simp [Int.toNat_natCast]

/-- Each loop iteration only appends to the accumulated winners. -/
lemma stepCategory_acc_extends (vc : String → Nat) (now : Nat)
    (q : WinnersState × List Winner) (g : String × List Nomination) :
    ∃ t, (stepCategory vc now q g).2 = q.2 ++ t := by
  cases hp : pickBest vc g.2 none (-1) with
  | mk b h =>
      cases b with
      | none => exact ⟨[], by simp [stepCategory, hp]⟩
      | some bn =>
          by_cases h0 : (0 : Int) < h
          · refine ⟨[⟨q.1.next_winner_id, bn.id, bn.employee_id, bn.employee_name,
              bn.category, h.toNat, bn.reason, now⟩], ?_⟩
            simp [stepCategory, hp, h0]
          · exact ⟨[], by simp [stepCategory, hp, h0]⟩

/-- Winners accumulated so far survive the rest of the loop. -/
lemma foldl_acc_mem (vc : String → Nat) (now : Nat)
    (gs : List (String × List Nomination)) :
    ∀ (q : WinnersState × List Winner) (x : Winner), x ∈ q.2 →
      x ∈ (gs.foldl (stepCategory vc now) q).2 := by
  induction gs with
  | nil => intro q x hx; exact hx
  | cons g rest ih =>
      intro q x hx
      simp only [List.foldl_cons]
      apply ih
      obtain ⟨t, ht⟩ := stepCategory_acc_extends vc now q g
      rw [ht]
      exact List.mem_append_left _ hx

/-- The whole loop produces a winner for every listed category whose
maximum count is positive. -/
lemma foldl_produces (vc : String → Nat) (now : Nat)
    (gs : List (String × List Nomination)) (c : String) (catNoms : List Nomination)
    (hmem : (c, catNoms) ∈ gs) (hne : catNoms ≠ []) (hpos : 0 < maxVotes vc catNoms) :
    ∀ q : WinnersState × List Winner,
      ∃ w ∈ (gs.foldl (stepCategory vc now) q).2, WinnerFromBest vc now catNoms w := by
  induction gs with
  | nil => exact absurd hmem (List.not_mem_nil _)
  | cons g rest ih =>
      intro q
      rcases List.mem_cons.mp hmem with hg | hg
      · obtain ⟨w, hw, hwb⟩ := stepCategory_produces vc now q c catNoms hne hpos
        refine ⟨w, ?_, hwb⟩
        simp only [List.foldl_cons, ← hg]
        apply foldl_acc_mem
        rw [hw]
        simp
      · simp only [List.foldl_cons]
        exact ih hg _

/-- Membership is preserved by key deduplication. -/
lemma mem_keyOrder : ∀ (l : List String) (x : String), x ∈ keyOrder l ↔ x ∈ l := by
  intro l
  induction l using keyOrder.induct with
  | case1 => intro x; simp [keyOrder]
  | case2 c rest ih =>
      intro x
      rw [keyOrder]
      constructor
      · intro hx
        rcases List.mem_cons.mp hx with hx | hx
        · exact hx ▸ List.mem_cons_self c rest
        · have := (ih x).mp hx
          exact List.mem_cons_of_mem c (List.mem_filter.mp this).1
      · intro hx
        rcases List.mem_cons.mp hx with hx | hx
        · exact hx ▸ List.mem_cons_self _ _
        · by_cases hxc : x = c
          · exact hxc ▸ List.mem_cons_self _ _
          · refine List.mem_cons_of_mem c ((ih x).mpr ?_)
            exact List.mem_filter.mpr ⟨hx, by simpa using hxc⟩

/-- A category with at least one nomination appears in the grouping,
paired with exactly its nominations in retrieval order. -/
lemma mem_groupByCategory {noms : List Nomination} {c : String}
    (hne : noms.filter (fun n => n.category == c) ≠ []) :
    (c, noms.filter (fun n => n.category == c)) ∈ groupByCategory noms := by
  obtain ⟨n, hn⟩ := List.exists_mem_of_ne_nil _ hne
  obtain ⟨hnm, hnc⟩ := List.mem_filter.mp hn
  have hc : c ∈ noms.map (fun n => n.category) :=
    List.mem_map.mpr ⟨n, hnm, by simpa using hnc⟩
  exact List.mem_map_of_mem _ ((mem_keyOrder _ c).mpr hc)

/-! ### Claim C1: maximum votes and first-in-order tie-break -/

/-- C1: for every category with a nomination and a strictly positive
maximum count (counting 0 for nominations absent from the snapshot),
resolution succeeds and creates a winner whose total_votes is that
maximum and whose identifying fields come from the first nomination in
retrieval order achieving the maximum — so ties go to the
first-listed nomination. -/
theorem calculate_winners_max_votes_tiebreak
    (noms : List Nomination) (votes : List (String × Nat)) (now : Nat)
    (st : WinnersState) (c : String)
    (hne : noms.filter (fun n => n.category == c) ≠ [])
    (hpos : 0 < maxVotes (voteCountMap votes) (noms.filter (fun n => n.category == c))) :
    ∃ ws, (calculate_winners (some noms) (some votes) now st).1 = .ok ws ∧
      ∃ w ∈ ws, ∃ bestN,
        (noms.filter (fun n => n.category == c)).find?
            (fun n => voteCountMap votes n.id
              == maxVotes (voteCountMap votes) (noms.filter (fun n => n.category == c)))
          = some bestN ∧
        w.category = c ∧
        w.total_votes
          = maxVotes (voteCountMap votes) (noms.filter (fun n => n.category == c)) ∧
        w.nomination_id = bestN.id ∧ w.employee_id = bestN.employee_id ∧
        w.employee_name = bestN.employee_name ∧ w.reason = bestN.reason := by
  obtain ⟨w, hw, bN, hfind, hcat, hnid, htot, heid, hename, hreason, -⟩ :=
    foldl_produces (voteCountMap votes) now (groupByCategory noms) c
      (noms.filter (fun n => n.category == c)) (mem_groupByCategory hne) hne hpos (st, [])
  refine ⟨((groupByCategory noms).foldl (stepCategory (voteCountMap votes) now) (st, [])).2,
    rfl, w, hw, bN, hfind, ?_, htot, hnid, heid, hename, hreason⟩
  have hbmem := List.mem_of_find?_eq_some hfind
  have : (bN.category == c) = true := (List.mem_filter.mp hbmem).2
  rw [hcat]
  simpa using this

/-- Witness for C1: two nominations tied at count 3 in one category —
the first-listed must win, and a winner with total_votes 3 exists. -/
theorem calculate_winners_max_votes_tiebreak_witness :
    ∃ ws, (calculate_winners (some [mkNom "n1" "Fine Work", mkNom "n2" "Fine Work"])
        (some [("n1", 3), ("n2", 3)]) 7 { winners_db := [], next_winner_id := 0 }).1 = .ok ws ∧
      ∃ w ∈ ws, ∃ bestN,
        ([mkNom "n1" "Fine Work", mkNom "n2" "Fine Work"].filter
            (fun n => n.category == "Fine Work")).find?
            (fun n => voteCountMap [("n1", 3), ("n2", 3)] n.id
              == maxVotes (voteCountMap [("n1", 3), ("n2", 3)])
                ([mkNom "n1" "Fine Work", mkNom "n2" "Fine Work"].filter
                  (fun n => n.category == "Fine Work")))
          = some bestN ∧
        w.category = "Fine Work" ∧
        w.total_votes
          = maxVotes (voteCountMap [("n1", 3), ("n2", 3)])
              ([mkNom "n1" "Fine Work", mkNom "n2" "Fine Work"].filter
                (fun n => n.category == "Fine Work")) ∧
        w.nomination_id = bestN.id ∧ w.employee_id = bestN.employee_id ∧
        w.employee_name = bestN.employee_name ∧ w.reason = bestN.reason :=
  calculate_winners_max_votes_tiebreak
    [mkNom "n1" "Fine Work", mkNom "n2" "Fine Work"] [("n1", 3), ("n2", 3)] 7
    { winners_db := [], next_winner_id := 0 } "Fine Work" (by decide) (by decide)

/-! ### Supporting lemmas: categories with zero votes (claim C6) -/

/-- The selected nomination, when any, comes from the scanned list or
was the starting candidate. -/
lemma pickBest_mem (vc : String → Nat) (l : List Nomination) :
    ∀ (b : Option Nomination) (h : Int) (n : Nomination),
      (pickBest vc l b h).1 = some n → n ∈ l ∨ b = some n := by
  induction l with
  | nil => intro b h n hn; exact Or.inr hn
  | cons m rest ih =>
      intro b h n hn
      simp only [pickBest] at hn
      by_cases hc : ((vc m.id : Int)) > h
      · rw [if_pos hc] at hn
        rcases ih _ _ _ hn with h1 | h1
        · exact Or.inl (List.mem_cons_of_mem _ h1)
        · left
          have : m = n := Option.some.inj h1
          exact this ▸ List.mem_cons_self m rest
      · rw [if_neg hc] at hn
        rcases ih _ _ _ hn with h1 | h1
        · exact Or.inl (List.mem_cons_of_mem _ h1)
        · exact Or.inr h1

/-- A category whose nominations all have zero votes is skipped by the
loop: the highest count stays at 0 and the strict positivity test
fails. -/
lemma stepCategory_skip_zero (vc : String → Nat) (now : Nat)
    (g : String × List Nomination) (hz : ∀ n ∈ g.2, vc n.id = 0)
    (q : WinnersState × List Winner) :
    stepCategory vc now q g = q := by
  have hfold : ∀ (l : List Nomination), (∀ n ∈ l, vc n.id = 0) → ∀ h : Int, h ≤ 0 →
      l.foldl (fun acc n => max acc ((vc n.id : Int))) h ≤ 0 := by
    intro l
    induction l with
    | nil => intro _ h hh; exact hh
    | cons m rest ih =>
        intro hzl h hh
        simp only [List.foldl_cons]
        apply ih (fun n hn => hzl n (List.mem_cons_of_mem _ hn))
        have hm : vc m.id = 0 := hzl m (List.mem_cons_self m rest)
        rw [hm]
        simp only [Nat.cast_zero]
        exact max_le hh le_rfl
  have hle : (pickBest vc g.2 none (-1)).2 ≤ 0 := by
    rw [pickBest_snd]
    exact hfold g.2 hz (-1) (by omega)
  cases hp : pickBest vc g.2 none (-1) with
  | mk b h =>
      rw [hp] at hle
      simp only at hle
      cases b with
      | none => simp [stepCategory, hp]
      | some bn =>
          simp only [stepCategory, hp]
          rw [if_neg (not_lt.mpr hle)]

/-- Removal from the registry only drops entries. -/
lemma mem_removeExistingForCategory {w : Winner} {c : String} {db : List Winner}
    (h : w ∈ removeExistingForCategory c db) : w ∈ db := by
  unfold removeExistingForCategory at h
  cases hf : db.find? (fun x => x.category == c) with
  | none => rw [hf] at h; exact h
  | some ex =>
      rw [hf] at h
      exact (List.mem_filter.mp h).1

/-- Any member of the registry after a dict insertion is an old entry
or the inserted one. -/
lemma mem_dictInsertWinner {w x : Winner} {db : List Winner}
    (h : w ∈ dictInsertWinner x db) : w ∈ db ∨ w = x := by
  unfold dictInsertWinner at h
  by_cases hc : db.any (fun y => y.id == x.id)
  · rw [if_pos hc] at h
    obtain ⟨y, hy, hyw⟩ := List.mem_map.mp h
    by_cases hid : (y.id == x.id) = true
    · right
      rw [← hyw, if_pos hid]
    · left
      rw [← hyw, if_neg hid]
      exact hy
  · rw [if_neg hc] at h
    rcases List.mem_append.mp h with h | h
    · exact Or.inl h
    · right
      simpa using h

/-- A loop iteration over a group none of whose nominations is in
category c neither produces a c-winner nor adds a c-entry to the
registry. -/
lemma stepCategory_no_gain (vc : String → Nat) (now : Nat) (c : String)
    (q : WinnersState × List Winner) (g : String × List Nomination)
    (hg : ∀ n ∈ g.2, n.category ≠ c) :
    (∀ w ∈ (stepCategory vc now q g).2, w ∈ q.2 ∨ w.category ≠ c) ∧
    (∀ w ∈ (stepCategory vc now q g).1.winners_db, w.category = c → w ∈ q.1.winners_db) := by
  cases hp : pickBest vc g.2 none (-1) with
  | mk b h =>
      cases b with
      | none =>
          simp only [stepCategory, hp]
          exact ⟨fun w hw => Or.inl hw, fun w hw _ => hw⟩
      | some bn =>
          have hbn : bn ∈ g.2 := by
            rcases pickBest_mem vc g.2 none (-1) bn (by rw [hp]) with h1 | h1
            · exact h1
            · exact absurd h1 (by simp)
          have hbc : bn.category ≠ c := hg bn hbn
          by_cases h0 : (0 : Int) < h
          · simp only [stepCategory, hp]
            rw [if_pos h0]
            constructor
            · intro w hw
              rcases List.mem_append.mp hw with hw | hw
              · exact Or.inl hw
              · right
                have hweq : w = ⟨q.1.next_winner_id, bn.id, bn.employee_id, bn.employee_name,
                    bn.category, h.toNat, bn.reason, now⟩ := by simpa using hw
                rw [hweq]
                exact hbc
            · intro w hw hwc
              rcases mem_dictInsertWinner hw with hw1 | hw1
              · exact mem_removeExistingForCategory hw1
              · exfalso
                apply hbc
                rw [← hwc, hw1]
          · simp only [stepCategory, hp]
            rw [if_neg h0]
            exact ⟨fun w hw => Or.inl hw, fun w hw _ => hw⟩

/-- Lifting of the no-gain property through the whole loop. -/
lemma foldl_no_gain (vc : String → Nat) (now : Nat) (c : String)
    (gs : List (String × List Nomination))
    (hgs : ∀ g ∈ gs, (∀ n ∈ g.2, n.category ≠ c) ∨
      (∀ q : WinnersState × List Winner, stepCategory vc now q g = q)) :
    ∀ q : WinnersState × List Winner,
      (∀ w ∈ (gs.foldl (stepCategory vc now) q).2, w ∈ q.2 ∨ w.category ≠ c) ∧
      (∀ w ∈ (gs.foldl (stepCategory vc now) q).1.winners_db,
        w.category = c → w ∈ q.1.winners_db) := by
  induction gs with
  | nil => intro q; exact ⟨fun w hw => Or.inl hw, fun w hw _ => hw⟩
  | cons g rest ih =>
      intro q
      have hstep : (∀ w ∈ (stepCategory vc now q g).2, w ∈ q.2 ∨ w.category ≠ c) ∧
          (∀ w ∈ (stepCategory vc now q g).1.winners_db,
            w.category = c → w ∈ q.1.winners_db) := by
        rcases hgs g (List.mem_cons_self _ _) with hg | hg
        · exact stepCategory_no_gain vc now c q g hg
        · rw [hg q]
          exact ⟨fun w hw => Or.inl hw, fun w hw _ => hw⟩
      obtain ⟨ih1, ih2⟩ := ih (fun g hgmem => hgs g (List.mem_cons_of_mem _ hgmem))
        (stepCategory vc now q g)
      simp only [List.foldl_cons]
      constructor
      · intro w hw
        rcases ih1 w hw with hw1 | hw1
        · exact hstep.1 w hw1
        · exact Or.inr hw1
      · intro w hw hwc
        exact hstep.2 w (ih2 w hw hwc) hwc

/-! ### Claim C6: zero-vote categories get no winner -/

/-- C6: a category with at least one nomination all of whose vote
counts are zero yields no winner: resolution succeeds, no new winner
carries that category, and every registry entry of that category after
the call was already there before (the registry gains no entry for
it). -/
theorem calculate_winners_zero_votes_no_winner
    (noms : List Nomination) (votes : List (String × Nat)) (now : Nat)
    (st : WinnersState) (c : String)
    (hne : noms.filter (fun n => n.category == c) ≠ [])
    (hzero : ∀ n ∈ noms.filter (fun n => n.category == c), voteCountMap votes n.id = 0) :
    ∃ ws, (calculate_winners (some noms) (some votes) now st).1 = .ok ws ∧
      (∀ w ∈ ws, w.category ≠ c) ∧
      (∀ w ∈ (calculate_winners (some noms) (some votes) now st).2.winners_db,
        w.category = c → w ∈ st.winners_db) := by
  have hgs : ∀ g ∈ groupByCategory noms, (∀ n ∈ g.2, n.category ≠ c) ∨
      (∀ q : WinnersState × List Winner, stepCategory (voteCountMap votes) now q g = q) := by
    intro g hgmem
    obtain ⟨c2, hc2, hgeq⟩ := List.mem_map.mp hgmem
    by_cases hcc : c2 = c
    · right
      intro q
      apply stepCategory_skip_zero
      intro n hn
      apply hzero
      rw [← hgeq] at hn
      simp only at hn
      rw [hcc] at hn
      exact hn
    · left
      intro n hn
      rw [← hgeq] at hn
      simp only at hn
      have hcat : (n.category == c2) = true := (List.mem_filter.mp hn).2
      rw [eq_of_beq hcat]
      exact hcc
  obtain ⟨h1, h2⟩ := foldl_no_gain (voteCountMap votes) now c (groupByCategory noms) hgs (st, [])
  refine ⟨_, rfl, ?_, ?_⟩
  · intro w hw
    rcases h1 w hw with h | h
    · exact absurd h (List.not_mem_nil w)
    · exact h
  · exact fun w hw hwc => h2 w hw hwc

/-- Witness for C6: one nominated category with a zero count produces
no winner and leaves the registry empty. -/
theorem calculate_winners_zero_votes_no_winner_witness :
    ∃ ws, (calculate_winners (some [mkNom "n1" "Fine Work"]) (some [("n1", 0)]) 7
        { winners_db := [], next_winner_id := 0 }).1 = .ok ws ∧
      (∀ w ∈ ws, w.category ≠ "Fine Work") ∧
      (∀ w ∈ (calculate_winners (some [mkNom "n1" "Fine Work"]) (some [("n1", 0)]) 7
          { winners_db := [], next_winner_id := 0 }).2.winners_db,
        w.category = "Fine Work" →
          w ∈ WinnersState.winners_db { winners_db := [], next_winner_id := 0 }) :=
  calculate_winners_zero_votes_no_winner [mkNom "n1" "Fine Work"] [("n1", 0)] 7
    { winners_db := [], next_winner_id := 0 } "Fine Work" (by decide) (by decide)

/-! ### Supporting lemmas: the registry invariant (claim C3) -/

/-- Registry invariant maintained by the winners service: at most one
winner per category, pairwise distinct identifiers, and all
identifiers below the fresh-id counter. -/
def WInvS (st : WinnersState) : Prop :=
  (∀ c, (st.winners_db.filter (fun w => w.category == c)).length ≤ 1) ∧
  (st.winners_db.map (fun w => w.id)).Nodup ∧
  (∀ w ∈ st.winners_db, w.id < st.next_winner_id)

/-- Removal produces a sublist of the registry. -/
lemma removeExisting_sublist (c : String) (db : List Winner) :
    (removeExistingForCategory c db).Sublist db := by
  unfold removeExistingForCategory
  split
  · exact List.Sublist.refl _
  · exact List.filter_sublist _

/-- When a category holds at most one entry, removing its existing
winner leaves no entry of that category. -/
lemma removeExisting_filter_nil {c : String} {db : List Winner}
    (h1 : (db.filter (fun w => w.category == c)).length ≤ 1) :
    (removeExistingForCategory c db).filter (fun w => w.category == c) = [] := by
  unfold removeExistingForCategory
  cases hf : db.find? (fun w => w.category == c) with
  | none =>
      apply List.filter_eq_nil_iff.mpr
      intro w hw
      exact List.find?_eq_none.mp hf w hw
  | some ex =>
      apply List.filter_eq_nil_iff.mpr
      intro w hw hwc
      obtain ⟨hwdb, hwid⟩ := List.mem_filter.mp hw
      have hexp : (ex.category == c) = true :=
        List.find?_some (p := fun w : Winner => w.category == c) hf
      have hexmem : ex ∈ db.filter (fun w => w.category == c) :=
        List.mem_filter.mpr ⟨List.mem_of_find?_eq_some hf, hexp⟩
      have hwmem : w ∈ db.filter (fun w => w.category == c) :=
        List.mem_filter.mpr ⟨hwdb, hwc⟩
      have hwex : w = ex := by
        rcases hl : db.filter (fun w => w.category == c) with _ | ⟨a, tl⟩
        · rw [hl] at hexmem
          exact absurd hexmem (List.not_mem_nil ex)
        · rw [hl] at h1 hexmem hwmem
          cases tl with
          | nil =>
              exact (List.mem_singleton.mp hwmem).trans (List.mem_singleton.mp hexmem).symm
          | cons p tl2 => simp at h1
      rw [hwex] at hwid
      simp at hwid

/-- Inserting under a fresh identifier appends. -/
lemma dictInsert_fresh {x : Winner} {db : List Winner}
    (h : ∀ y ∈ db, y.id ≠ x.id) : dictInsertWinner x db = db ++ [x] := by
  unfold dictInsertWinner
  rw [if_neg]
  intro hc
  obtain ⟨y, hy, hyx⟩ := List.any_eq_true.mp hc
  exact h y hy (by simpa using hyx)

/-- One loop iteration preserves the registry invariant. -/
lemma stepCategory_inv (vc : String → Nat) (now : Nat)
    (q : WinnersState × List Winner) (g : String × List Nomination)
    (hinv : WInvS q.1) : WInvS (stepCategory vc now q g).1 := by
  cases hp : pickBest vc g.2 none (-1) with
  | mk b h =>
      cases b with
      | none =>
          simp only [stepCategory, hp]
          exact hinv
      | some bn =>
          by_cases h0 : (0 : Int) < h
          · simp only [stepCategory, hp]
            rw [if_pos h0]
            obtain ⟨hcount, hnodup, hlt⟩ := hinv
            have hsub := removeExisting_sublist bn.category q.1.winners_db
            have hfresh : ∀ y ∈ removeExistingForCategory bn.category q.1.winners_db,
                y.id ≠ q.1.next_winner_id := by
              intro y hy
              exact Nat.ne_of_lt (hlt y (hsub.subset hy))
            rw [dictInsert_fresh hfresh]
            refine ⟨?_, ?_, ?_⟩
            · intro d
              rw [List.filter_append]
              by_cases hd : (bn.category == d) = true
              · have hnil : (removeExistingForCategory bn.category q.1.winners_db).filter
                    (fun x => x.category == d) = [] := by
                  rw [← eq_of_beq hd]
                  exact removeExisting_filter_nil (hcount bn.category)
                rw [hnil]
                simp [hd]
              · have hnil : List.filter (fun x => x.category == d)
                    [(⟨q.1.next_winner_id, bn.id, bn.employee_id, bn.employee_name,
                      bn.category, h.toNat, bn.reason, now⟩ : Winner)] = [] := by
                  simp [hd]
                rw [hnil, List.append_nil]
                calc ((removeExistingForCategory bn.category q.1.winners_db).filter
                        (fun x => x.category == d)).length
                    ≤ (q.1.winners_db.filter (fun x => x.category == d)).length :=
                      (hsub.filter _).length_le
                  _ ≤ 1 := hcount d
            · rw [List.map_append]
              refine List.Nodup.append ?_ (List.nodup_singleton _) ?_
              · exact hnodup.sublist (hsub.map (fun w => w.id))
              · intro a ha hb
                simp only [List.map_cons, List.map_nil, List.mem_singleton] at hb
                obtain ⟨y, hy, hyid⟩ := List.mem_map.mp ha
                exact hfresh y hy (by rw [hyid, hb])
            · intro y hy
              rcases List.mem_append.mp hy with hy | hy
              · exact Nat.lt_succ_of_lt (hlt y (hsub.subset hy))
              · have : y = ⟨q.1.next_winner_id, bn.id, bn.employee_id, bn.employee_name,
                    bn.category, h.toNat, bn.reason, now⟩ := by simpa using hy
                rw [this]
                exact Nat.lt_succ_self _
          · simp only [stepCategory, hp]
            rw [if_neg h0]
            exact hinv

/-- The whole loop preserves the registry invariant. -/
lemma foldl_inv (vc : String → Nat) (now : Nat)
    (gs : List (String × List Nomination)) :
    ∀ q : WinnersState × List Winner, WInvS q.1 →
      WInvS ((gs.foldl (stepCategory vc now) q)).1 := by
  induction gs with
  | nil => intro q hq; exact hq
  | cons g rest ih =>
      intro q hq
      simp only [List.foldl_cons]
      exact ih _ (stepCategory_inv vc now q g hq)

/-- Winner resolution preserves the registry invariant. -/
lemma calculate_winners_inv (nomsResp : Option (List Nomination))
    (votesResp : Option (List (String × Nat))) (now : Nat) (st : WinnersState)
    (hinv : WInvS st) : WInvS (calculate_winners nomsResp votesResp now st).2 := by
  cases nomsResp with
  | none => exact hinv
  | some noms =>
      cases votesResp with
      | none => exact hinv
      | some votes =>
          exact foldl_inv (voteCountMap votes) now (groupByCategory noms) (st, []) hinv

/-- Every reachable registry state satisfies the invariant. -/
lemma reachableW_inv {st : WinnersState} (h : ReachableW st) : WInvS st := by
  induction h with
  | init => exact ⟨fun c => by simp, by simp, by simp⟩
  | step st nomsResp votesResp now hst ih =>
      exact calculate_winners_inv nomsResp votesResp now st ih

/-! ### Claim C3: at most one winner per category, always -/

/-- C3: in every state reachable by any sequence of resolution calls,
the registry holds at most one winner per category — a re-resolution
replaces the prior winner of a category rather than duplicating it. -/
theorem reachable_at_most_one_winner_per_category
    (st : WinnersState) (h : ReachableW st) (c : String) :
    (st.winners_db.filter (fun w => w.category == c)).length ≤ 1 :=
  (reachableW_inv h).1 c

/-- Witness for C3 at a concrete reachable state: two successive
resolutions of the same category with changed vote counts. -/
theorem reachable_at_most_one_winner_per_category_witness :
    ((calculate_winners (some [mkNom "n1" "Fine Work", mkNom "n2" "Fine Work"])
          (some [("n2", 4)]) 6
          (calculate_winners (some [mkNom "n1" "Fine Work"]) (some [("n1", 2)]) 5 {}).2).2.winners_db.filter
        (fun w => w.category == "Fine Work")).length ≤ 1 :=
  reachable_at_most_one_winner_per_category _
    (ReachableW.step _ _ _ 6 (ReachableW.step _ _ _ 5 ReachableW.init)) "Fine Work"

/-! ### Reachable security states are consistent -/

/-- States of the security service reachable from the empty store by
ingestion and investigation. -/
inductive ReachableS : SecurityState → Prop
  | init : ReachableS {}
  | ingest (st : SecurityState) (e : AuditEvent) :
      ReachableS st → ReachableS (process_audit_event e st)
  | investigate (st : SecurityState) (i : Nat) (notes : String) (now : Nat) :
      ReachableS st → ReachableS (investigate_audit_log i notes now st).2

/-- Bookkeeping invariant of the security service: dedup consistency,
identifiers below the counter, and pairwise distinct identifiers. -/
def SecInv (st : SecurityState) : Prop :=
  SecConsistent st ∧ (∀ l ∈ st.audit_logs_db, l.id < st.next_log_id) ∧
    (st.audit_logs_db.map (fun l => l.id)).Nodup

/-- Ingestion preserves the bookkeeping invariant. -/
lemma process_audit_event_inv {st : SecurityState} (e : AuditEvent)
    (h : SecInv st) : SecInv (process_audit_event e st) := by
  obtain ⟨hcons, hlt, hnodup⟩ := h
  by_cases hmem : e.id ∈ st.processed_events
  · rw [process_audit_event_processed hmem]
    exact ⟨hcons, hlt, hnodup⟩
  · obtain ⟨hdb, hpr⟩ := process_audit_event_fresh hmem
    have hprid : (process_audit_event e st).next_log_id = st.next_log_id + 1 := by
      simp [process_audit_event, hmem]
    refine ⟨?_, ?_, ?_⟩
    · intro i
      rw [hdb, hpr]
      simp only [List.mem_append, List.mem_singleton]
      constructor
      · rintro (hi | rfl)
        · obtain ⟨l, hl, hle⟩ := (hcons i).mp hi
          exact ⟨l, Or.inl hl, hle⟩
        · exact ⟨_, Or.inr rfl, rfl⟩
      · rintro ⟨l, hl | hl, hle⟩
        · exact Or.inl ((hcons i).mpr ⟨l, hl, hle⟩)
        · subst hl
          exact Or.inr hle.symm
    · intro l hl
      rw [hdb] at hl
      rw [hprid]
      rcases List.mem_append.mp hl with hl | hl
      · exact Nat.lt_succ_of_lt (hlt l hl)
      · have : l.id = st.next_log_id := by
          rw [List.mem_singleton.mp hl]
        rw [this]
        exact Nat.lt_succ_self _
    · rw [hdb, List.map_append]
      refine List.Nodup.append hnodup (List.nodup_singleton _) ?_
      intro a ha hb
      simp only [List.map_cons, List.map_nil, List.mem_singleton] at hb
      obtain ⟨l, hl, hlid⟩ := List.mem_map.mp ha
      have := hlt l hl
      omega

/-- Investigation preserves the bookkeeping invariant. -/
lemma investigate_audit_log_inv {st : SecurityState} (i : Nat) (notes : String) (now : Nat)
    (h : SecInv st) : SecInv (investigate_audit_log i notes now st).2 := by
  obtain ⟨hcons, hlt, hnodup⟩ := h
  cases hf : st.audit_logs_db.find? (fun l => l.id == i) with
  | none =>
      simp only [investigate_audit_log, hf]
      exact ⟨hcons, hlt, hnodup⟩
  | some log =>
      have hlogmem : log ∈ st.audit_logs_db := List.mem_of_find?_eq_some hf
      have hlogid : log.id = i := by
        have := List.find?_some (p := fun l : AuditLog => l.id == i) hf
        exact eq_of_beq this
      have hfn : ∀ l ∈ st.audit_logs_db,
          (if l.id == i then applyInvestigation notes now log else l).event_id = l.event_id ∧
          (if l.id == i then applyInvestigation notes now log else l).id = l.id := by
        intro l hl
        by_cases hli : (l.id == i) = true
        · have hsame : l = log :=
            List.inj_on_of_nodup_map hnodup hl hlogmem (by rw [eq_of_beq hli, hlogid])
          rw [if_pos hli, hsame]
          exact ⟨rfl, rfl⟩
        · rw [if_neg hli]
          exact ⟨rfl, rfl⟩
      simp only [investigate_audit_log, hf]
      refine ⟨?_, ?_, ?_⟩
      · intro j
        constructor
        · intro hj
          obtain ⟨l, hl, hle⟩ := (hcons j).mp hj
          exact ⟨_, List.mem_map_of_mem _ hl, by rw [(hfn l hl).1]; exact hle⟩
        · rintro ⟨l2, hl2, hle⟩
          obtain ⟨l, hl, hfl⟩ := List.mem_map.mp hl2
          refine (hcons j).mpr ⟨l, hl, ?_⟩
          rw [← (hfn l hl).1, hfl]
          exact hle
      · intro l2 hl2
        obtain ⟨l, hl, hleq⟩ := List.mem_map.mp hl2
        have := (hfn l hl).2
        rw [hleq] at this
        rw [this]
        exact hlt l hl
      · have hmapeq : (st.audit_logs_db.map
            (fun l => if l.id == i then applyInvestigation notes now log else l)).map
              (fun l => l.id)
            = st.audit_logs_db.map (fun l => l.id) := by
          rw [List.map_map]
          apply List.map_congr_left
          intro l hl
          exact (hfn l hl).2
        rw [hmapeq]
        exact hnodup

/-- Every reachable security state satisfies the invariant; in
particular the dedup bookkeeping always agrees with the stored log. -/
lemma reachableS_consistent {st : SecurityState} (h : ReachableS st) : SecConsistent st := by
  have : SecInv st := by
    induction h with
    | init =>
        refine ⟨fun i => ?_, by simp, by simp⟩
        simp [SecurityState.processed_events, SecurityState.audit_logs_db]
    | ingest st e hst ih => exact process_audit_event_inv e ih
    | investigate st i notes now hst ih => exact investigate_audit_log_inv i notes now ih
  exact this.1

/-! ### Supporting lemmas: audit-log retrieval (claim C9) -/

/-- The successive filter stages of get_audit_logs compose into one
filter by the conjunction of the supplied filters (meaningful string
filters only), followed by the stable sort and the truncation. -/
lemma get_audit_logs_filter_eq (f : LogFilters) (limit : Nat) (st : SecurityState)
    (hs : f.service_name ≠ some "") (hu : f.user_id ≠ some "") :
    get_audit_logs f limit st
      = ((st.audit_logs_db.filter (matchesFilters f)).mergeSort
          (fun a b => b.created_at ≤ a.created_at)).take limit := by
  have stage1 : ∀ l : List AuditLog,
      (match f.event_type with
       | none => l
       | some et => l.filter (fun log => log.event_type == et))
      = l.filter (fun log =>
          match f.event_type with
          | none => true
          | some et => log.event_type == et) := by
    intro l
    cases f.event_type
    · exact (List.filter_true l).symm
    · rfl
  have stage2 : ∀ l : List AuditLog,
      (match f.service_name with
       | none => l
       | some s => if s == "" then l else l.filter (fun log => log.service_name == s))
      = l.filter (fun log =>
          match f.service_name with
          | none => true
          | some s => log.service_name == s) := by
    intro l
    cases hsx : f.service_name with
    | none => exact (List.filter_true l).symm
    | some s =>
        have hne : ((s == "") = true) → False := by
          intro h
          exact hs (by rw [hsx, eq_of_beq h])
        show (if s == "" then l else l.filter (fun log => log.service_name == s))
            = l.filter (fun log => log.service_name == s)
        rw [if_neg hne]
  have stage3 : ∀ l : List AuditLog,
      (match f.user_id with
       | none => l
       | some u => if u == "" then l else l.filter (fun log => log.user_id == some u))
      = l.filter (fun log =>
          match f.user_id with
          | none => true
          | some u => log.user_id == some u) := by
    intro l
    cases hux : f.user_id with
    | none => exact (List.filter_true l).symm
    | some u =>
        have hne : ((u == "") = true) → False := by
          intro h
          exact hu (by rw [hux, eq_of_beq h])
        show (if u == "" then l else l.filter (fun log => log.user_id == some u))
            = l.filter (fun log => log.user_id == some u)
        rw [if_neg hne]
  have stage4 : ∀ l : List AuditLog,
      (match f.min_risk_score with
       | none => l
       | some m => l.filter (fun log => m ≤ (log.risk_score : Int)))
      = l.filter (fun log =>
          match f.min_risk_score with
          | none => true
          | some m => decide (m ≤ (log.risk_score : Int))) := by
    intro l
    cases f.min_risk_score
    · exact (List.filter_true l).symm
    · rfl
  have stage5 : ∀ l : List AuditLog,
      (match f.investigated with
       | none => l
       | some b => l.filter (fun log => log.investigated == b))
      = l.filter (fun log =>
          match f.investigated with
          | none => true
          | some b => log.investigated == b) := by
    intro l
    cases f.investigated
    · exact (List.filter_true l).symm
    · rfl
  simp only [get_audit_logs]
  rw [stage1, stage2, stage3, stage4, stage5]
  simp only [List.filter_filter]
  congr 1
  congr 1
  apply List.filter_congr
  intro a _
  simp only [matchesFilters]
  generalize (match f.event_type with
    | none => true
    | some et => a.event_type == et) = b1
  generalize (match f.service_name with
    | none => true
    | some s => a.service_name == s) = b2
  generalize (match f.user_id with
    | none => true
    | some u => a.user_id == some u) = b3
  generalize (match f.min_risk_score with
    | none => true
    | some m => decide (m ≤ (a.risk_score : Int))) = b4
  generalize (match f.investigated with
    | none => true
    | some b => a.investigated == b) = b5
  cases b1 <;> cases b2 <;> cases b3 <;> cases b4 <;> cases b5 <;> rfl

/-! ### Claim C9: filtered, sorted, limited retrieval -/

/-- C9: retrieval returns exactly the entries satisfying the
conjunction of all supplied filters (an empty-string filter value is
falsy in the source and hence counts as not supplied), sorted by
creation time descending, truncated to the limit: every returned entry
matches, the result is sorted, its length is the minimum of the
matching-entry count and the limit, and whenever the matching entries
fit within the limit each of them is returned. -/
theorem get_audit_logs_filter_sort_limit (f : LogFilters) (limit : Nat) (st : SecurityState)
    (hs : f.service_name ≠ some "") (hu : f.user_id ≠ some "") :
    (∀ log ∈ get_audit_logs f limit st, matchesFilters f log = true) ∧
    (get_audit_logs f limit st).Sorted (fun a b => b.created_at ≤ a.created_at) ∧
    (get_audit_logs f limit st).length
      = min (st.audit_logs_db.filter (matchesFilters f)).length limit ∧
    (∀ log ∈ st.audit_logs_db, matchesFilters f log = true →
      (st.audit_logs_db.filter (matchesFilters f)).length ≤ limit →
        log ∈ get_audit_logs f limit st) := by
  have hchain := get_audit_logs_filter_eq f limit st hs hu
  have hperm := List.mergeSort_perm (st.audit_logs_db.filter (matchesFilters f))
    (fun a b => b.created_at ≤ a.created_at)
  have hsorted := @List.sorted_mergeSort AuditLog
    (fun a b : AuditLog => decide (b.created_at ≤ a.created_at))
    (fun a b c h1 h2 => by
      simp only [decide_eq_true_eq] at h1 h2 ⊢
      omega)
    (fun a b => by
      by_cases h : b.created_at ≤ a.created_at <;> simp [h] <;> omega)
    (st.audit_logs_db.filter (matchesFilters f))
  refine ⟨?_, ?_, ?_, ?_⟩
  · intro log hlog
    rw [hchain] at hlog
    have hmem : log ∈ (st.audit_logs_db.filter (matchesFilters f)).mergeSort
        (fun a b => b.created_at ≤ a.created_at) :=
      (List.take_sublist _ _).subset hlog
    exact (List.mem_filter.mp (hperm.mem_iff.mp hmem)).2
  · rw [hchain]
    have hp : List.Pairwise (fun a b : AuditLog => b.created_at ≤ a.created_at)
        ((st.audit_logs_db.filter (matchesFilters f)).mergeSort
          (fun a b => b.created_at ≤ a.created_at)) :=
      hsorted.imp (fun h => by simpa using h)
    exact List.Pairwise.sublist (List.take_sublist _ _) hp
  · rw [hchain, List.length_take, hperm.length_eq, Nat.min_comm]
  · intro log hmem hmatch hlen
    rw [hchain]
    have hfl : log ∈ st.audit_logs_db.filter (matchesFilters f) :=
      List.mem_filter.mpr ⟨hmem, hmatch⟩
    have hsl : ((st.audit_logs_db.filter (matchesFilters f)).mergeSort
        (fun a b => b.created_at ≤ a.created_at)).length ≤ limit := by
      rw [hperm.length_eq]
      exact hlen
    rw [List.take_of_length_le hsl]
    exact hperm.mem_iff.mpr hfl

/-- A state holding one voting entry and one nominations entry, for
the filter-composition witness. -/
def sampleTwoServices : SecurityState :=
  process_audit_event
    { mkEvent "c" 9 with service_name := "nominations", event_type := .nomination_submitted }
    (process_audit_event (mkEvent "a" 1) {})

/-- Witness for C9: the composed filter service=voting AND
eventKind=vote-cast over a two-service log. -/
theorem get_audit_logs_filter_sort_limit_witness :
    (∀ log ∈ get_audit_logs
        { event_type := some .vote_cast, service_name := some "voting" } 100 sampleTwoServices,
      matchesFilters { event_type := some .vote_cast, service_name := some "voting" } log = true) ∧
    (get_audit_logs { event_type := some .vote_cast, service_name := some "voting" } 100
        sampleTwoServices).Sorted (fun a b => b.created_at ≤ a.created_at) ∧
    (get_audit_logs { event_type := some .vote_cast, service_name := some "voting" } 100
        sampleTwoServices).length
      = min (sampleTwoServices.audit_logs_db.filter
          (matchesFilters { event_type := some .vote_cast, service_name := some "voting" })).length
          100 ∧
    (∀ log ∈ sampleTwoServices.audit_logs_db,
      matchesFilters { event_type := some .vote_cast, service_name := some "voting" } log = true →
      (sampleTwoServices.audit_logs_db.filter
          (matchesFilters { event_type := some .vote_cast, service_name := some "voting" })).length
        ≤ 100 →
        log ∈ get_audit_logs { event_type := some .vote_cast, service_name := some "voting" } 100
          sampleTwoServices) :=
  get_audit_logs_filter_sort_limit
    { event_type := some .vote_cast, service_name := some "voting" } 100 sampleTwoServices
    (by decide) (by decide)

end Dundie
